import Mathlib

/-!
Verification of the box-clustering engine (extract_text_positions.py) and the
annotation layout engine (create_overlay.py) of the vision-anchored autograder.

Conventions of the shallow embedding:
* Pixel coordinates are `Int` (the Python code manipulates Python ints).
* Python floats that only ever hold exact values in the code paths under study
  are modelled as exact rationals (`Rat`) or scaled integers; in particular a
  box center `(x1+x2)/2.0` is a half-integer, so comparisons of center
  distances against an integer tolerance `t` are modelled exactly by comparing
  the doubled distance against `2*t`.
* Fallible code (`raise ValueError`) returns `Option`.
* Dictionaries with optional keys are modelled as structures with `Option`
  fields, read through `Option.getD` mirroring `dict.get(key, default)`.
-/

set_option maxRecDepth 10000

/-! ## Data model (extract_text_positions.py) -/

/-- A bounding box dictionary `{top_left, bottom_right, width, height}` as
built by `extract_text_with_positions` and `merge_boxes`. -/
structure BBox where
  top_left : Int × Int
  bottom_right : Int × Int
  width : Int
  height : Int
  deriving DecidableEq

/-- A word box / region dictionary.  OCR word boxes carry no
`original_boxes` key, which is modelled by `original_boxes = none`;
`merge_boxes` of two or more boxes sets it to the group size. -/
structure Box where
  id : Nat
  text : String
  confidence : Rat
  bbox : BBox
  original_boxes : Option Nat
  deriving DecidableEq

instance : Inhabited Box :=
  ⟨{ id := 0, text := "", confidence := 0,
     bbox := { top_left := (0, 0), bottom_right := (0, 0), width := 0, height := 0 },
     original_boxes := none }⟩

/-- The grouping configuration; `should_merge_boxes` reads the four keys with
`int(config.get(key, default))`, so a config is four integers. -/
structure Config where
  max_horizontal_gap : Int
  max_vertical_gap : Int
  horizontal_alignment_tolerance : Int
  vertical_alignment_tolerance : Int

/-- The default config built by `improved_group_nearby_boxes` when `config is None`. -/
def defaultConfig : Config :=
  { max_horizontal_gap := 80, max_vertical_gap := 40,
    horizontal_alignment_tolerance := 25, vertical_alignment_tolerance := 40 }

/-! ## Geometric predicates (extract_text_positions.py lines 65-110) -/

/-- Twice `calculate_box_center`: the Python center `((x1+x2)/2.0, (y1+y2)/2.0)`
is a pair of half-integers, kept doubled so as to stay in `Int` exactly. -/
def calculate_box_center2 (b : BBox) : Int × Int :=
  (b.top_left.1 + b.bottom_right.1, b.top_left.2 + b.bottom_right.2)

/-- `boxes_are_horizontally_aligned`: vertical-center distance at most
`tolerance` (both sides doubled: `|y1c - y2c| <= tol` iff `|2*y1c - 2*y2c| <= 2*tol`). -/
def boxes_are_horizontally_aligned (box1 box2 : Box) (tolerance : Int) : Prop :=
  |(calculate_box_center2 box1.bbox).2 - (calculate_box_center2 box2.bbox).2| ≤ 2 * tolerance

/-- `boxes_are_vertically_aligned`: horizontal-center distance at most `tolerance`. -/
def boxes_are_vertically_aligned (box1 box2 : Box) (tolerance : Int) : Prop :=
  |(calculate_box_center2 box1.bbox).1 - (calculate_box_center2 box2.bbox).1| ≤ 2 * tolerance

instance (b1 b2 : Box) (t : Int) : Decidable (boxes_are_horizontally_aligned b1 b2 t) := by
  unfold boxes_are_horizontally_aligned; infer_instance

instance (b1 b2 : Box) (t : Int) : Decidable (boxes_are_vertically_aligned b1 b2 t) := by
  unfold boxes_are_vertically_aligned; infer_instance

/-- `calculate_gap_between_boxes`: 0 on x-overlap, else distance between the
facing edges (checked in both left/right orders). -/
def calculate_gap_between_boxes (box1 box2 : Box) : Int :=
  if box2.bbox.top_left.1 ≥ box1.bbox.bottom_right.1 then
    box2.bbox.top_left.1 - box1.bbox.bottom_right.1
  else if box1.bbox.top_left.1 ≥ box2.bbox.bottom_right.1 then
    box1.bbox.top_left.1 - box2.bbox.bottom_right.1
  else 0

/-- `should_merge_boxes` (lines 91-110): horizontally mergeable (aligned
centers and small edge gap) or vertically mergeable (aligned centers and one
box's top within `max_vertical_gap` below the other's bottom, either order). -/
def should_merge_boxes (box1 box2 : Box) (config : Config) : Prop :=
  (boxes_are_horizontally_aligned box1 box2 config.horizontal_alignment_tolerance ∧
    calculate_gap_between_boxes box1 box2 ≤ config.max_horizontal_gap) ∨
  (boxes_are_vertically_aligned box1 box2 config.vertical_alignment_tolerance ∧
    ((box2.bbox.top_left.2 ≥ box1.bbox.bottom_right.2 ∧
       box2.bbox.top_left.2 - box1.bbox.bottom_right.2 ≤ config.max_vertical_gap) ∨
     (box1.bbox.top_left.2 ≥ box2.bbox.bottom_right.2 ∧
       box1.bbox.top_left.2 - box2.bbox.bottom_right.2 ≤ config.max_vertical_gap)))

instance (b1 b2 : Box) (c : Config) : Decidable (should_merge_boxes b1 b2 c) := by
  unfold should_merge_boxes; infer_instance

/-! ## merge_boxes (lines 113-140) -/

/-- Strict comparison on the sort key `(top_left.y, top_left.x)` used by
`merge_boxes`' `sorted(...)` call. -/
def boxKeyLt (b1 b2 : Box) : Prop :=
  b1.bbox.top_left.2 < b2.bbox.top_left.2 ∨
    (b1.bbox.top_left.2 = b2.bbox.top_left.2 ∧ b1.bbox.top_left.1 < b2.bbox.top_left.1)

instance (b1 b2 : Box) : Decidable (boxKeyLt b1 b2) := by
  unfold boxKeyLt; infer_instance

/-- Stable insertion used by `sortBoxes`: an element is placed after all
earlier elements whose key is not strictly greater, matching Python's stable sort. -/
def insertBox (b : Box) : List Box → List Box
  | [] => [b]
  | c :: cs => if boxKeyLt c b then c :: insertBox b cs else b :: c :: cs

/-- Stable sort by `(top_left.y, top_left.x)`, the semantics of Python's
`sorted(boxes, key=lambda x: (y, x))`. -/
def sortBoxes : List Box → List Box
  | [] => []
  | b :: bs => insertBox b (sortBoxes bs)

/-- Python's `min` over a list; the empty case is unreachable in `merge_boxes`
(Python would raise there). -/
def listMin : List Int → Int
  | [] => 0
  | x :: xs => xs.foldl min x

/-- Python's `max` over a list; the empty case is unreachable in `merge_boxes`. -/
def listMax : List Int → Int
  | [] => 0
  | x :: xs => xs.foldl max x

/-- Python's `round(q, 3)`: nearest multiple of 1/1000 with ties to even
(binary floating point effects are not modelled). -/
def pyRound3 (q : Rat) : Rat :=
  let s := q * 1000
  let f : Int := Int.floor s
  let n : Int :=
    if s - f < 1 / 2 then f
    else if (1 : Rat) / 2 < s - f then f + 1
    else if f % 2 = 0 then f else f + 1
  (n : Rat) / 1000

/-- `merge_boxes` (lines 113-140): `none` models the `ValueError` on an empty
group; a singleton group is returned as-is; otherwise the boxes are sorted by
`(y, x)`, the envelope bbox is taken, texts are space-joined and confidences
averaged (rounded to 3 decimals), and `original_boxes` records the group size. -/
def merge_boxes (boxes : List Box) : Option Box :=
  match boxes with
  | [] => none
  | [b] => some b
  | b1 :: b2 :: bs =>
    let sorted_boxes := sortBoxes (b1 :: b2 :: bs)
    let xs := (sorted_boxes.map (fun b => [b.bbox.top_left.1, b.bbox.bottom_right.1])).flatten
    let ys := (sorted_boxes.map (fun b => [b.bbox.top_left.2, b.bbox.bottom_right.2])).flatten
    let merged_bbox : BBox :=
      { top_left := (listMin xs, listMin ys),
        bottom_right := (listMax xs, listMax ys),
        width := listMax xs - listMin xs,
        height := listMax ys - listMin ys }
    some
      { id := (sorted_boxes.headD default).id,
        text := String.intercalate " " (sorted_boxes.map Box.text),
        confidence := pyRound3 ((sorted_boxes.map Box.confidence).sum / (sorted_boxes.length : Rat)),
        bbox := merged_bbox,
        original_boxes := some sorted_boxes.length }

/-! ## improved_group_nearby_boxes (lines 143-174)

The Python loop keeps a `used` set of indices and grows the current group by
repeatedly rescanning all still-unused boxes, adding any candidate that
matches *some* current group member, until a full scan adds nothing.  The
embedding carries the group and the ordered list of unused indices
explicitly; the rescan loop is driven by fuel, which strictly exceeds the
number of possible additions, so the fuel-0 branches are unreachable at the
call sites below (each pass that changes anything shortens `unused`). -/

/-- One full `for j, cand in enumerate(boxes)` scan of the inner loop: returns
the grown group and the candidates still unused, in order. -/
def passOnce (adj : Nat → Nat → Bool) : List Nat → List Nat → List Nat × List Nat
  | group, [] => (group, [])
  | group, j :: rest =>
    if group.any (fun g => adj g j) then passOnce adj (group ++ [j]) rest
    else ((passOnce adj group rest).1, j :: (passOnce adj group rest).2)

/-- The `while changed` loop: rescan until a pass adds nothing. -/
def growGroup (adj : Nat → Nat → Bool) : Nat → List Nat → List Nat → List Nat × List Nat
  | 0, group, unused => (group, unused)
  | fuel + 1, group, unused =>
    let p := passOnce adj group unused
    if p.2.length = unused.length then p
    else growGroup adj fuel p.1 p.2

/-- The outer `for i, current in enumerate(boxes)` loop: seed a group with the
first unused index, saturate it, emit it, and continue on the remainder. -/
def groupLoop (adj : Nat → Nat → Bool) : Nat → List Nat → List (List Nat)
  | 0, _ => []
  | _ + 1, [] => []
  | fuel + 1, i :: rest =>
    let p := growGroup adj rest.length [i] rest
    p.1 :: groupLoop adj fuel p.2

/-- `boxes[i]`; all accesses in the grouping code are in range. -/
def getBox (boxes : List Box) (i : Nat) : Box := boxes.getD i default

/-- The pairwise merge test on indices, as called by the grouping loop:
`should_merge_boxes(g, cand, config)`. -/
def mergeIdx (boxes : List Box) (config : Config) (i j : Nat) : Bool :=
  decide (should_merge_boxes (getBox boxes i) (getBox boxes j) config)

/-- The partition of input indices into groups computed by
`improved_group_nearby_boxes` before merging. -/
def clusterGroups (text_data : List Box) (config : Config) : List (List Nat) :=
  groupLoop (mergeIdx text_data config) text_data.length (List.range text_data.length)

/-- The tail of the Python loop: `merged = merge_boxes(group);
merged['id'] = len(grouped); grouped.append(merged)`.  `none` models the
(unreachable) `ValueError` from merging an empty group. -/
def buildRegions (boxes : List Box) : List (List Nat) → Nat → Option (List Box)
  | [], _ => some []
  | g :: gs, k =>
    match merge_boxes (g.map (getBox boxes)) with
    | none => none
    | some m =>
      match buildRegions boxes gs (k + 1) with
      | none => none
      | some rest => some ({ m with id := k } :: rest)

/-- `improved_group_nearby_boxes` (lines 143-174). -/
def improved_group_nearby_boxes (text_data : List Box) (config : Config) : Option (List Box) :=
  if text_data.isEmpty then some []
  else buildRegions text_data (clusterGroups text_data config) 0

/-- `adaptive_grouping_config` scaling (lines 177-191); the scale factors
`max(1.0, dim/1000.0)` and the float multiply/int truncation are modelled
exactly over rationals, which agrees with the Python arithmetic for the
integer dimensions in range. -/
def adaptive_grouping_config (image_width image_height : Int) : Config :=
  let width_scale : Rat := max 1 ((image_width : Rat) / 1000)
  let height_scale : Rat := max 1 ((image_height : Rat) / 1000)
  { max_horizontal_gap := Int.floor (80 * width_scale),
    max_vertical_gap := Int.floor (40 * height_scale),
    horizontal_alignment_tolerance := Int.floor (25 * height_scale),
    vertical_alignment_tolerance := Int.floor (40 * width_scale) }

/-- A well-formed (OCR-produced) box: `top_left` is the coordinate-wise min of
the word's vertices and `bottom_right` the max. -/
def WFBox (b : Box) : Prop :=
  b.bbox.top_left.1 ≤ b.bbox.bottom_right.1 ∧ b.bbox.top_left.2 ≤ b.bbox.bottom_right.2

instance (b : Box) : Decidable (WFBox b) := by
  unfold WFBox; infer_instance

/-! ## Invariants of one scan (`passOnce`) -/

theorem passOnce_perm (adj : Nat → Nat → Bool) (unused : List Nat) : ∀ group : List Nat,
    List.Perm ((passOnce adj group unused).1 ++ (passOnce adj group unused).2)
      (group ++ unused) := by
  induction unused with
  | nil => intro group; simp [passOnce]
  | cons j rest ih =>
    intro group
    cases h : group.any (fun g => adj g j) with
    | true =>
      simp only [passOnce, h, if_true]
      have h2 : group ++ j :: rest = (group ++ [j]) ++ rest := by simp
      rw [h2]
      exact ih (group ++ [j])
    | false =>
      simp only [passOnce, h, Bool.false_eq_true, if_false]
      exact (List.perm_middle.trans ((ih group).cons j)).trans List.perm_middle.symm

theorem passOnce_unused_length (adj : Nat → Nat → Bool) (unused : List Nat) :
    ∀ group : List Nat, (passOnce adj group unused).2.length ≤ unused.length := by
  induction unused with
  | nil => intro group; simp [passOnce]
  | cons j rest ih =>
    intro group
    cases h : group.any (fun g => adj g j) with
    | true =>
      simp only [passOnce, h, if_true, List.length_cons]
      exact le_trans (ih (group ++ [j])) (Nat.le_succ _)
    | false =>
      simp only [passOnce, h, Bool.false_eq_true, if_false, List.length_cons]
      exact Nat.succ_le_succ (ih group)

theorem passOnce_fix (adj : Nat → Nat → Bool) (unused : List Nat) :
    ∀ group : List Nat, (passOnce adj group unused).2.length = unused.length →
      passOnce adj group unused = (group, unused) := by
  induction unused with
  | nil => intro group _; simp [passOnce]
  | cons j rest ih =>
    intro group hlen
    cases h : group.any (fun g => adj g j) with
    | true =>
      exfalso
      rw [passOnce] at hlen
      simp only [h, if_true, List.length_cons] at hlen
      have hle := passOnce_unused_length adj rest (group ++ [j])
      omega
    | false =>
      rw [passOnce] at hlen ⊢
      simp only [h, Bool.false_eq_true, if_false, List.length_cons] at hlen ⊢
      have hr : (passOnce adj group rest).2.length = rest.length := by omega
      rw [ih group hr]

theorem passOnce_fix_no_adj (adj : Nat → Nat → Bool) (unused : List Nat) :
    ∀ group : List Nat, (passOnce adj group unused).2.length = unused.length →
      ∀ j ∈ unused, ∀ g ∈ group, adj g j = false := by
  induction unused with
  | nil => intro group _ j hj; exact absurd hj (List.not_mem_nil j)
  | cons j0 rest ih =>
    intro group hlen j hj g hg
    cases h : group.any (fun g => adj g j0) with
    | true =>
      exfalso
      rw [passOnce] at hlen
      simp only [h, if_true, List.length_cons] at hlen
      have hle := passOnce_unused_length adj rest (group ++ [j0])
      omega
    | false =>
      have hnone : ∀ g' ∈ group, adj g' j0 = false := by
        intro g' hg'
        have h2 := List.any_eq_false.mp h g' hg'
        revert h2
        cases adj g' j0 <;> simp
      rcases List.mem_cons.mp hj with hj0 | hjr
      · subst hj0; exact hnone g hg
      · rw [passOnce] at hlen
        simp only [h, Bool.false_eq_true, if_false, List.length_cons] at hlen
        have hr : (passOnce adj group rest).2.length = rest.length := by omega
        exact ih group hr j hjr g hg

theorem passOnce_group_extends (adj : Nat → Nat → Bool) (unused : List Nat) :
    ∀ group : List Nat, ∃ t, (passOnce adj group unused).1 = group ++ t := by
  induction unused with
  | nil => intro group; exact ⟨[], by simp [passOnce]⟩
  | cons j rest ih =>
    intro group
    cases h : group.any (fun g => adj g j) with
    | true =>
      simp only [passOnce, h, if_true]
      obtain ⟨t, ht⟩ := ih (group ++ [j])
      exact ⟨j :: t, by simp [ht]⟩
    | false =>
      simp only [passOnce, h, Bool.false_eq_true, if_false]
      exact ih group

/-! ## Connectivity within a group -/

/-- Transitive connection between indices under the merge relation `adj`,
with every step inside the index set `L`. -/
def Conn (adj : Nat → Nat → Bool) (L : List Nat) (a b : Nat) : Prop :=
  Relation.ReflTransGen (fun x y => x ∈ L ∧ y ∈ L ∧ adj x y = true) a b

theorem Conn.mono {adj : Nat → Nat → Bool} {L M : List Nat} (hsub : ∀ x ∈ L, x ∈ M)
    {a b : Nat} (h : Conn adj L a b) : Conn adj M a b :=
  Relation.ReflTransGen.mono (fun x y hr => ⟨hsub x hr.1, hsub y hr.2.1, hr.2.2⟩) h

theorem Conn.symm {adj : Nat → Nat → Bool} (hs : ∀ a b, adj a b = adj b a)
    {L : List Nat} {a b : Nat} (h : Conn adj L a b) : Conn adj L b a := by
  refine Relation.ReflTransGen.symmetric ?_ h
  intro x y hr
  exact ⟨hr.2.1, hr.1, by rw [hs y x]; exact hr.2.2⟩

theorem passOnce_conn (adj : Nat → Nat → Bool) (hs : ∀ a b, adj a b = adj b a)
    (unused : List Nat) : ∀ (group : List Nat) (s : Nat),
    (∀ x ∈ group, Conn adj group x s) →
    ∀ x ∈ (passOnce adj group unused).1, Conn adj (passOnce adj group unused).1 x s := by
  induction unused with
  | nil => intro group s hg; simpa [passOnce] using hg
  | cons j rest ih =>
    intro group s hg
    cases h : group.any (fun g => adj g j) with
    | true =>
      simp only [passOnce, h, if_true]
      refine ih (group ++ [j]) s ?_
      intro x hx
      rcases List.mem_append.mp hx with hxg | hxj
      · exact Conn.mono (fun z hz => List.mem_append_left _ hz) (hg x hxg)
      · obtain ⟨g, hgmem, hadj⟩ := List.any_eq_true.mp h
        have hxeqj : x = j := by simpa using hxj
        subst hxeqj
        refine Relation.ReflTransGen.head
          ⟨by simp, List.mem_append_left _ hgmem, ?_⟩
          (Conn.mono (fun z hz => List.mem_append_left _ hz) (hg g hgmem))
        rw [hs x g]; exact hadj
    | false =>
      simp only [passOnce, h, Bool.false_eq_true, if_false]
      exact ih group s hg

/-! ## Invariants of the rescan loop (`growGroup`) -/

theorem growGroup_perm (adj : Nat → Nat → Bool) : ∀ (fuel : Nat) (group unused : List Nat),
    List.Perm ((growGroup adj fuel group unused).1 ++ (growGroup adj fuel group unused).2)
      (group ++ unused) := by
  intro fuel
  induction fuel with
  | zero => intro group unused; simp [growGroup]
  | succ fuel ih =>
    intro group unused
    rw [growGroup]
    by_cases hc : (passOnce adj group unused).2.length = unused.length
    · simp only [hc, if_true]
      exact passOnce_perm adj unused group
    · simp only [hc, if_false]
      exact (ih _ _).trans (passOnce_perm adj unused group)

theorem growGroup_unused_le (adj : Nat → Nat → Bool) : ∀ (fuel : Nat) (group unused : List Nat),
    (growGroup adj fuel group unused).2.length ≤ unused.length := by
  intro fuel
  induction fuel with
  | zero => intro group unused; simp [growGroup]
  | succ fuel ih =>
    intro group unused
    rw [growGroup]
    by_cases hc : (passOnce adj group unused).2.length = unused.length
    · simp only [hc, if_true]
      exact le_refl _
    · simp only [hc, if_false]
      exact le_trans (ih _ _) (passOnce_unused_length adj unused group)

theorem growGroup_group_extends (adj : Nat → Nat → Bool) :
    ∀ (fuel : Nat) (group unused : List Nat),
    ∃ t, (growGroup adj fuel group unused).1 = group ++ t := by
  intro fuel
  induction fuel with
  | zero => intro group unused; exact ⟨[], by simp [growGroup]⟩
  | succ fuel ih =>
    intro group unused
    rw [growGroup]
    by_cases hc : (passOnce adj group unused).2.length = unused.length
    · simp only [hc, if_true]
      exact passOnce_group_extends adj unused group
    · simp only [hc, if_false]
      obtain ⟨t1, ht1⟩ := passOnce_group_extends adj unused group
      obtain ⟨t2, ht2⟩ := ih (passOnce adj group unused).1 (passOnce adj group unused).2
      exact ⟨t1 ++ t2, by rw [ht2, ht1, List.append_assoc]⟩

/-- At the end of the `while changed` loop no still-unused candidate matches
any member of the saturated group. -/
theorem growGroup_fix (adj : Nat → Nat → Bool) : ∀ (fuel : Nat) (group unused : List Nat),
    unused.length ≤ fuel →
    ∀ j ∈ (growGroup adj fuel group unused).2, ∀ g ∈ (growGroup adj fuel group unused).1,
      adj g j = false := by
  intro fuel
  induction fuel with
  | zero =>
    intro group unused hfuel
    have : unused = [] := List.length_eq_zero.mp (Nat.le_zero.mp hfuel)
    subst this
    intro j hj
    simp [growGroup] at hj
  | succ fuel ih =>
    intro group unused hfuel
    rw [growGroup]
    by_cases hc : (passOnce adj group unused).2.length = unused.length
    · simp only [hc, if_true]
      rw [passOnce_fix adj unused group hc]
      exact passOnce_fix_no_adj adj unused group hc
    · simp only [hc, if_false]
      refine ih _ _ ?_
      have h1 := passOnce_unused_length adj unused group
      omega

theorem growGroup_conn (adj : Nat → Nat → Bool) (hs : ∀ a b, adj a b = adj b a) :
    ∀ (fuel : Nat) (group unused : List Nat) (s : Nat),
    (∀ x ∈ group, Conn adj group x s) →
    ∀ x ∈ (growGroup adj fuel group unused).1,
      Conn adj (growGroup adj fuel group unused).1 x s := by
  intro fuel
  induction fuel with
  | zero => intro group unused s hg; simpa [growGroup] using hg
  | succ fuel ih =>
    intro group unused s hg
    rw [growGroup]
    by_cases hc : (passOnce adj group unused).2.length = unused.length
    · simp only [hc, if_true]
      exact passOnce_conn adj hs unused group s hg
    · simp only [hc, if_false]
      exact ih _ _ s (passOnce_conn adj hs unused group s hg)

/-! ## Invariants of the outer loop (`groupLoop`) -/

theorem groupLoop_flatten_perm (adj : Nat → Nat → Bool) : ∀ (fuel : Nat) (l : List Nat),
    l.length ≤ fuel → List.Perm (groupLoop adj fuel l).flatten l := by
  intro fuel
  induction fuel with
  | zero =>
    intro l hfuel
    have : l = [] := List.length_eq_zero.mp (Nat.le_zero.mp hfuel)
    subst this
    simp [groupLoop]
  | succ fuel ih =>
    intro l hfuel
    match l with
    | [] => simp [groupLoop]
    | i :: rest =>
      rw [groupLoop]
      simp only [List.flatten_cons]
      have hperm := growGroup_perm adj rest.length [i] rest
      have hlen : (growGroup adj rest.length [i] rest).2.length ≤ fuel :=
        le_trans (growGroup_unused_le adj rest.length [i] rest)
          (by simpa using Nat.succ_le_succ_iff.mp hfuel)
      have hrec := ih (growGroup adj rest.length [i] rest).2 hlen
      exact ((List.Perm.append_left _ hrec).trans hperm).trans (by simp)

theorem groupLoop_ne_nil (adj : Nat → Nat → Bool) : ∀ (fuel : Nat) (l : List Nat),
    ∀ G ∈ groupLoop adj fuel l, G ≠ [] := by
  intro fuel
  induction fuel with
  | zero => intro l G hG; simp [groupLoop] at hG
  | succ fuel ih =>
    intro l G hG
    match l with
    | [] => simp [groupLoop] at hG
    | i :: rest =>
      rw [groupLoop] at hG
      rcases List.mem_cons.mp hG with hG1 | hG2
      · obtain ⟨t, ht⟩ := growGroup_group_extends adj rest.length [i] rest
        subst hG1
        simp [ht]
      · exact ih _ G hG2

/-- Every emitted group is closed under the merge relation within the whole
input index list: a neighbour of a group member lands in the same group. -/
theorem groupLoop_closed (adj : Nat → Nat → Bool) (hs : ∀ a b, adj a b = adj b a) :
    ∀ (fuel : Nat) (l : List Nat), l.length ≤ fuel →
    ∀ G ∈ groupLoop adj fuel l, ∀ a ∈ G, ∀ b ∈ l, adj a b = true → b ∈ G := by
  intro fuel
  induction fuel with
  | zero =>
    intro l hfuel G hG
    simp [groupLoop] at hG
  | succ fuel ih =>
    intro l hfuel G hG a ha b hb hadj
    match l with
    | [] => simp [groupLoop] at hG
    | i :: rest =>
      rw [groupLoop] at hG
      have hperm := growGroup_perm adj rest.length [i] rest
      have hblr : b ∈ (growGroup adj rest.length [i] rest).1 ∨
          b ∈ (growGroup adj rest.length [i] rest).2 := by
        have : b ∈ (growGroup adj rest.length [i] rest).1 ++
            (growGroup adj rest.length [i] rest).2 := (hperm.mem_iff).mpr (by simpa using hb)
        exact List.mem_append.mp this
      have hlen : (growGroup adj rest.length [i] rest).2.length ≤ fuel :=
        le_trans (growGroup_unused_le adj rest.length [i] rest)
          (by simpa using Nat.succ_le_succ_iff.mp hfuel)
      rcases List.mem_cons.mp hG with hG1 | hG2
      · subst hG1
        rcases hblr with hb1 | hb2
        · exact hb1
        · exfalso
          have := growGroup_fix adj rest.length [i] rest (le_refl _) b hb2 a ha
          rw [hadj] at this
          simp at this
      · rcases hblr with hb1 | hb2
        · exfalso
          have hamem : a ∈ (growGroup adj rest.length [i] rest).2 := by
            have haflat : a ∈ (groupLoop adj fuel (growGroup adj rest.length [i] rest).2).flatten :=
              List.mem_flatten.mpr ⟨G, hG2, ha⟩
            exact (groupLoop_flatten_perm adj fuel _ hlen).mem_iff.mp haflat
          have := growGroup_fix adj rest.length [i] rest (le_refl _) a hamem b hb1
          rw [hs b a, hadj] at this
          simp at this
        · exact ih _ hlen G hG2 a ha b hb2 hadj

/-- Any two members of an emitted group are transitively connected, with all
intermediate steps inside the group. -/
theorem groupLoop_conn (adj : Nat → Nat → Bool) (hs : ∀ a b, adj a b = adj b a) :
    ∀ (fuel : Nat) (l : List Nat),
    ∀ G ∈ groupLoop adj fuel l, ∀ x ∈ G, ∀ y ∈ G, Conn adj G x y := by
  intro fuel
  induction fuel with
  | zero => intro l G hG; simp [groupLoop] at hG
  | succ fuel ih =>
    intro l G hG x hx y hy
    match l with
    | [] => simp [groupLoop] at hG
    | i :: rest =>
      rw [groupLoop] at hG
      rcases List.mem_cons.mp hG with hG1 | hG2
      · subst hG1
        have hseed : ∀ z ∈ [i], Conn adj [i] z i := by
          intro z hz
          have : z = i := by simpa using hz
          subst this
          exact Relation.ReflTransGen.refl
        have hc := growGroup_conn adj hs rest.length [i] rest i hseed
        exact (hc x hx).trans (Conn.symm hs (hc y hy))
      · exact ih _ G hG2 x hx y hy

/-! ## Symmetry and monotonicity of the merge predicate -/

theorem boxes_are_horizontally_aligned_comm (b1 b2 : Box) (t : Int) :
    boxes_are_horizontally_aligned b1 b2 t ↔ boxes_are_horizontally_aligned b2 b1 t := by
  unfold boxes_are_horizontally_aligned
  rw [abs_sub_comm]

theorem boxes_are_vertically_aligned_comm (b1 b2 : Box) (t : Int) :
    boxes_are_vertically_aligned b1 b2 t ↔ boxes_are_vertically_aligned b2 b1 t := by
  unfold boxes_are_vertically_aligned
  rw [abs_sub_comm]

/-- For well-formed boxes the nearest-edge gap is symmetric (the doubly
overlapping branch forces all four edges equal). -/
theorem calculate_gap_comm (b1 b2 : Box) (h1 : WFBox b1) (h2 : WFBox b2) :
    calculate_gap_between_boxes b1 b2 = calculate_gap_between_boxes b2 b1 := by
  unfold calculate_gap_between_boxes
  unfold WFBox at h1 h2
  split_ifs <;> omega

/-- `should_merge_boxes` is symmetric on well-formed boxes. -/
theorem should_merge_comm (b1 b2 : Box) (c : Config) (h1 : WFBox b1) (h2 : WFBox b2) :
    should_merge_boxes b1 b2 c ↔ should_merge_boxes b2 b1 c := by
  unfold should_merge_boxes
  rw [boxes_are_horizontally_aligned_comm, boxes_are_vertically_aligned_comm,
    calculate_gap_comm b1 b2 h1 h2]
  tauto

/-- Pointwise order on configs: every threshold of the first is at most the
corresponding threshold of the second. -/
def Config.le (c1 c2 : Config) : Prop :=
  c1.max_horizontal_gap ≤ c2.max_horizontal_gap ∧
  c1.max_vertical_gap ≤ c2.max_vertical_gap ∧
  c1.horizontal_alignment_tolerance ≤ c2.horizontal_alignment_tolerance ∧
  c1.vertical_alignment_tolerance ≤ c2.vertical_alignment_tolerance

instance (c1 c2 : Config) : Decidable (Config.le c1 c2) := by
  unfold Config.le; infer_instance

/-- Raising thresholds only adds merge edges. -/
theorem should_merge_mono (b1 b2 : Box) (c1 c2 : Config) (hle : Config.le c1 c2)
    (h : should_merge_boxes b1 b2 c1) : should_merge_boxes b1 b2 c2 := by
  obtain ⟨l1, l2, l3, l4⟩ := hle
  unfold should_merge_boxes boxes_are_horizontally_aligned boxes_are_vertically_aligned at h ⊢
  rcases h with ⟨ha, hb⟩ | ⟨ha, hb | hb⟩
  · exact Or.inl ⟨le_trans ha (by omega), le_trans hb l1⟩
  · exact Or.inr ⟨le_trans ha (by omega), Or.inl ⟨hb.1, le_trans hb.2 l2⟩⟩
  · exact Or.inr ⟨le_trans ha (by omega), Or.inr ⟨hb.1, le_trans hb.2 l2⟩⟩

/-! ## Specialisation to `clusterGroups` -/

theorem default_box_wf : WFBox (default : Box) := by decide

theorem getBox_wf (boxes : List Box) (hwf : ∀ b ∈ boxes, WFBox b) (i : Nat) :
    WFBox (getBox boxes i) := by
  unfold getBox
  induction boxes generalizing i with
  | nil => simpa [List.getD] using default_box_wf
  | cons b bs ih =>
    cases i with
    | zero => exact (by simpa [List.getD] using hwf b (by simp))
    | succ n =>
      have := ih (fun x hx => hwf x (by simp [hx])) n
      simpa [List.getD] using this

theorem mergeIdx_symm (boxes : List Box) (cfg : Config) (hwf : ∀ b ∈ boxes, WFBox b) :
    ∀ i j, mergeIdx boxes cfg i j = mergeIdx boxes cfg j i := by
  intro i j
  unfold mergeIdx
  exact decide_eq_decide.mpr
    (should_merge_comm _ _ _ (getBox_wf boxes hwf i) (getBox_wf boxes hwf j))

/-- The merge relation between in-range input boxes: the relation whose
transitive closure the spec's "transitively connected" refers to. -/
def connectedBoxes (boxes : List Box) (cfg : Config) (a b : Nat) : Prop :=
  a < boxes.length ∧ b < boxes.length ∧
    should_merge_boxes (getBox boxes a) (getBox boxes b) cfg

theorem clusterGroups_flatten_perm (boxes : List Box) (cfg : Config) :
    List.Perm (clusterGroups boxes cfg).flatten (List.range boxes.length) :=
  groupLoop_flatten_perm _ _ _ (by simp)

theorem clusterGroups_ne_nil (boxes : List Box) (cfg : Config) :
    ∀ G ∈ clusterGroups boxes cfg, G ≠ [] :=
  groupLoop_ne_nil _ _ _

theorem clusterGroups_mem_lt (boxes : List Box) (cfg : Config) {G : List Nat}
    (hG : G ∈ clusterGroups boxes cfg) {x : Nat} (hx : x ∈ G) : x < boxes.length := by
  have hflat : x ∈ (clusterGroups boxes cfg).flatten := List.mem_flatten.mpr ⟨G, hG, hx⟩
  have := (clusterGroups_flatten_perm boxes cfg).mem_iff.mp hflat
  simpa [List.mem_range] using this

theorem clusterGroups_mem_exists (boxes : List Box) (cfg : Config) {x : Nat}
    (hx : x < boxes.length) : ∃ G ∈ clusterGroups boxes cfg, x ∈ G := by
  have hflat : x ∈ (clusterGroups boxes cfg).flatten :=
    (clusterGroups_flatten_perm boxes cfg).mem_iff.mpr (List.mem_range.mpr hx)
  exact List.mem_flatten.mp hflat

/-- Members of a common emitted group are transitively connected. -/
theorem clusterGroups_conn (boxes : List Box) (cfg : Config)
    (hwf : ∀ b ∈ boxes, WFBox b) {G : List Nat} (hG : G ∈ clusterGroups boxes cfg)
    {x y : Nat} (hx : x ∈ G) (hy : y ∈ G) :
    Relation.ReflTransGen (connectedBoxes boxes cfg) x y := by
  have hconn := groupLoop_conn (mergeIdx boxes cfg) (mergeIdx_symm boxes cfg hwf)
    boxes.length (List.range boxes.length) G hG x hx y hy
  refine Relation.ReflTransGen.mono ?_ hconn
  intro a b hr
  exact ⟨clusterGroups_mem_lt boxes cfg hG hr.1, clusterGroups_mem_lt boxes cfg hG hr.2.1,
    of_decide_eq_true hr.2.2⟩

/-- An emitted group absorbs everything transitively connected to it. -/
theorem clusterGroups_closed (boxes : List Box) (cfg : Config)
    (hwf : ∀ b ∈ boxes, WFBox b) {G : List Nat} (hG : G ∈ clusterGroups boxes cfg)
    {x y : Nat} (hx : x ∈ G)
    (hconn : Relation.ReflTransGen (connectedBoxes boxes cfg) x y) : y ∈ G := by
  induction hconn with
  | refl => exact hx
  | tail hab hr ih =>
    obtain ⟨hlt1, hlt2, hsm⟩ := hr
    exact groupLoop_closed (mergeIdx boxes cfg) (mergeIdx_symm boxes cfg hwf)
      boxes.length (List.range boxes.length) (by simp) G hG _ ih _
      (List.mem_range.mpr hlt2) (decide_eq_true hsm)

theorem clusterGroups_flatten_nodup (boxes : List Box) (cfg : Config) :
    (clusterGroups boxes cfg).flatten.Nodup :=
  ((clusterGroups_flatten_perm boxes cfg).nodup_iff).mpr (List.nodup_range _)

theorem mem_unique_of_flatten_nodup : ∀ gs : List (List Nat), gs.flatten.Nodup →
    ∀ G ∈ gs, ∀ G' ∈ gs, ∀ x, x ∈ G → x ∈ G' → G = G' := by
  intro gs
  induction gs with
  | nil => intro _ G hG; exact absurd hG (List.not_mem_nil G)
  | cons h t ih =>
    intro hnd G hG G' hG' x hxG hxG'
    rw [List.flatten_cons, List.nodup_append] at hnd
    obtain ⟨hh, ht, hdisj⟩ := hnd
    rcases List.mem_cons.mp hG with hG1 | hG2 <;> rcases List.mem_cons.mp hG' with hG'1 | hG'2
    · rw [hG1, hG'1]
    · exact absurd (hdisj (hG1 ▸ hxG) (List.mem_flatten.mpr ⟨G', hG'2, hxG'⟩)) not_false
    · exact absurd (hdisj (hG'1 ▸ hxG') (List.mem_flatten.mpr ⟨G, hG2, hxG⟩)) not_false
    · exact ih ht G hG2 G' hG'2 x hxG hxG'

theorem clusterGroups_unique (boxes : List Box) (cfg : Config) {G G' : List Nat}
    (hG : G ∈ clusterGroups boxes cfg) (hG' : G' ∈ clusterGroups boxes cfg)
    {x : Nat} (hxG : x ∈ G) (hxG' : x ∈ G') : G = G' :=
  mem_unique_of_flatten_nodup _ (clusterGroups_flatten_nodup boxes cfg) G hG G' hG' x hxG hxG'

/-! ## From groups to emitted regions (`buildRegions`) -/

theorem buildRegions_eq_some (boxes : List Box) : ∀ (gs : List (List Nat)) (k : Nat),
    (∀ G ∈ gs, G ≠ []) →
    ∃ rs, buildRegions boxes gs k = some rs ∧ rs.length = gs.length := by
  intro gs
  induction gs with
  | nil => intro k _; exact ⟨[], rfl, rfl⟩
  | cons g t ih =>
    intro k hne
    obtain ⟨m, hm⟩ : ∃ m, merge_boxes (g.map (getBox boxes)) = some m := by
      match g, hne g (by simp) with
      | [b], _ => exact ⟨getBox boxes b, rfl⟩
      | b1 :: b2 :: bs, _ => exact ⟨_, rfl⟩
    obtain ⟨rs, hrs, hlen⟩ := ih (k + 1) (fun G hG => hne G (by simp [hG]))
    refine ⟨{ m with id := k } :: rs, ?_, by simp [hlen]⟩
    rw [buildRegions, hm, hrs]

theorem buildRegions_get (boxes : List Box) : ∀ (gs : List (List Nat)) (k : Nat)
    (rs : List Box), buildRegions boxes gs k = some rs →
    ∀ (idx : Nat) (G : List Nat), gs.get? idx = some G →
    ∃ m, merge_boxes (G.map (getBox boxes)) = some m ∧
      rs.get? idx = some { m with id := k + idx } := by
  intro gs
  induction gs with
  | nil => intro k rs _ idx G hget; simp at hget
  | cons g t ih =>
    intro k rs hbuild idx G hget
    rw [buildRegions] at hbuild
    cases hm : merge_boxes (g.map (getBox boxes)) with
    | none => rw [hm] at hbuild; exact absurd hbuild (by simp)
    | some m =>
      rw [hm] at hbuild
      cases hb2 : buildRegions boxes t (k + 1) with
      | none => rw [hb2] at hbuild; exact absurd hbuild (by simp)
      | some rest =>
        rw [hb2] at hbuild
        have hrs : rs = { m with id := k } :: rest := by
          have := hbuild
          simp at this
          exact this.symm
        subst hrs
        cases idx with
        | zero =>
          have hGg : G = g := by simpa using hget.symm
          subst hGg
          exact ⟨m, hm, by simp⟩
        | succ n =>
          have hget2 : t.get? n = some G := by simpa using hget
          obtain ⟨m2, hm2, hrest⟩ := ih (k + 1) rest hb2 n G hget2
          refine ⟨m2, hm2, ?_⟩
          have haux : k + 1 + n = k + (n + 1) := by omega
          simpa [haux] using hrest

/-! ## Auxiliary counting lemmas -/

theorem length_le_flatten_length : ∀ gs : List (List Nat),
    (∀ G ∈ gs, G ≠ []) → gs.length ≤ gs.flatten.length := by
  intro gs
  induction gs with
  | nil => simp
  | cons g t ih =>
    intro hne
    rw [List.flatten_cons, List.length_append, List.length_cons]
    have h1 : 0 < g.length := List.length_pos.mpr (hne g (by simp))
    have h2 := ih (fun G hG => hne G (by simp [hG]))
    omega

theorem length_le_one_of_all_eq : ∀ (gs : List (List Nat)) (G0 : List Nat),
    gs.flatten.Nodup → (∀ G ∈ gs, G = G0) → G0 ≠ [] → gs.length ≤ 1 := by
  intro gs G0 hnd hall hne
  match gs with
  | [] => simp
  | [g] => simp
  | g1 :: g2 :: t =>
    exfalso
    have h1 : g1 = G0 := hall g1 (by simp)
    have h2 : g2 = G0 := hall g2 (by simp)
    obtain ⟨x, hx⟩ := List.exists_mem_of_ne_nil _ hne
    rw [List.flatten_cons, List.nodup_append] at hnd
    exact hnd.2.2 (h1 ▸ hx) (List.mem_flatten.mpr ⟨g2, by simp, h2 ▸ hx⟩)

/-! ## Sample data used by the witnesses -/

def sampleBoxA : Box where
  id := 0
  text := "hello"
  confidence := 1
  bbox := { top_left := (10, 10), bottom_right := (50, 30), width := 40, height := 20 }
  original_boxes := none

def sampleBoxB : Box where
  id := 1
  text := "world"
  confidence := 0
  bbox := { top_left := (55, 12), bottom_right := (90, 32), width := 35, height := 20 }
  original_boxes := none

def sampleBoxFar : Box where
  id := 2
  text := "far"
  confidence := 1
  bbox := { top_left := (500, 500), bottom_right := (540, 520), width := 40, height := 20 }
  original_boxes := none

/-! ## Claims about the clustering engine -/

/-- C1: partition property of clustering.  The groups computed by
`improved_group_nearby_boxes` (via `clusterGroups`) form a partition of the
input indices: flattening them is a permutation of `range n`, so every input
box belongs to exactly one group, and the function emits exactly one Region
per group (never hitting the empty-group error). -/
theorem claim_C1_partition (boxes : List Box) (cfg : Config) :
    List.Perm (clusterGroups boxes cfg).flatten (List.range boxes.length) ∧
    ∃ regions, improved_group_nearby_boxes boxes cfg = some regions ∧
      regions.length = (clusterGroups boxes cfg).length := by
  refine ⟨clusterGroups_flatten_perm boxes cfg, ?_⟩
  by_cases hb : boxes.isEmpty = true
  · have hnil : boxes = [] := List.isEmpty_iff.mp hb
    subst hnil
    exact ⟨[], by rw [improved_group_nearby_boxes]; simp, by simp [clusterGroups, groupLoop]⟩
  · obtain ⟨rs, hrs, hlen⟩ := buildRegions_eq_some boxes (clusterGroups boxes cfg) 0
      (clusterGroups_ne_nil boxes cfg)
    exact ⟨rs, by rw [improved_group_nearby_boxes, if_neg hb]; exact hrs, hlen⟩

/-- C4: region-count contract.  For nonempty well-formed input, clustering
succeeds, emits at most one Region per input box, and emits exactly one
Region iff all input boxes are transitively connected under
`should_merge_boxes`. -/
theorem claim_C4_region_count (boxes : List Box) (cfg : Config)
    (hne : boxes ≠ []) (hwf : ∀ b ∈ boxes, WFBox b) :
    ∃ regions, improved_group_nearby_boxes boxes cfg = some regions ∧
      regions.length ≤ boxes.length ∧
      (regions.length = 1 ↔ ∀ i j, i < boxes.length → j < boxes.length →
        Relation.ReflTransGen (connectedBoxes boxes cfg) i j) := by
  obtain ⟨rs, hrs, hlen⟩ := buildRegions_eq_some boxes (clusterGroups boxes cfg) 0
    (clusterGroups_ne_nil boxes cfg)
  have hbne : ¬ boxes.isEmpty = true := by
    simpa [List.isEmpty_iff] using hne
  have himp : improved_group_nearby_boxes boxes cfg = some rs := by
    rw [improved_group_nearby_boxes, if_neg hbne]; exact hrs
  have hflatlen : (clusterGroups boxes cfg).flatten.length = boxes.length := by
    simpa using (clusterGroups_flatten_perm boxes cfg).length_eq
  refine ⟨rs, himp, ?_, ?_, ?_⟩
  · rw [hlen]
    have h1 := length_le_flatten_length (clusterGroups boxes cfg) (clusterGroups_ne_nil boxes cfg)
    omega
  · intro h1 i j hi hj
    rw [hlen] at h1
    obtain ⟨G, hGs⟩ := List.length_eq_one.mp h1
    have hG : G ∈ clusterGroups boxes cfg := by rw [hGs]; simp
    obtain ⟨Gi, hGi, hiGi⟩ := clusterGroups_mem_exists boxes cfg hi
    obtain ⟨Gj, hGj, hjGj⟩ := clusterGroups_mem_exists boxes cfg hj
    have hGiG : Gi = G := by rw [hGs] at hGi; simpa using hGi
    have hGjG : Gj = G := by rw [hGs] at hGj; simpa using hGj
    exact clusterGroups_conn boxes cfg hwf hG (hGiG ▸ hiGi) (hGjG ▸ hjGj)
  · intro hall
    rw [hlen]
    have hn : 0 < boxes.length := List.length_pos.mpr hne
    obtain ⟨G0, hG0, h0G0⟩ := clusterGroups_mem_exists boxes cfg hn
    have hforall : ∀ G ∈ clusterGroups boxes cfg, G = G0 := by
      intro G hG
      obtain ⟨x, hx⟩ := List.exists_mem_of_ne_nil _ (clusterGroups_ne_nil boxes cfg G hG)
      have hxlt := clusterGroups_mem_lt boxes cfg hG hx
      have hconn : Relation.ReflTransGen (connectedBoxes boxes cfg) 0 x := hall 0 x hn hxlt
      have hxG0 : x ∈ G0 := clusterGroups_closed boxes cfg hwf hG0 h0G0 hconn
      exact clusterGroups_unique boxes cfg hG hG0 hx hxG0
    have hle1 := length_le_one_of_all_eq (clusterGroups boxes cfg) G0
      (clusterGroups_flatten_nodup boxes cfg) hforall (clusterGroups_ne_nil boxes cfg G0 hG0)
    have hpos : 0 < (clusterGroups boxes cfg).length := List.length_pos.mpr (by
      intro hcontra
      rw [hcontra] at hG0
      exact absurd hG0 (List.not_mem_nil G0))
    omega

theorem claim_C4_region_count_witness :
    ∃ regions, improved_group_nearby_boxes [sampleBoxA, sampleBoxB] defaultConfig = some regions ∧
      regions.length ≤ ([sampleBoxA, sampleBoxB] : List Box).length ∧
      (regions.length = 1 ↔ ∀ i j, i < ([sampleBoxA, sampleBoxB] : List Box).length →
        j < ([sampleBoxA, sampleBoxB] : List Box).length →
        Relation.ReflTransGen (connectedBoxes [sampleBoxA, sampleBoxB] defaultConfig) i j) :=
  claim_C4_region_count [sampleBoxA, sampleBoxB] defaultConfig (by decide) (by decide)

/-- C5: monotonic tightening.  If every threshold of `c2` is at least the
corresponding threshold of `c1` (in particular when one or more thresholds
are increased and the rest kept equal), every group emitted under `c1` is
contained in some group emitted under `c2`. -/
theorem claim_C5_monotone (boxes : List Box) (c1 c2 : Config)
    (hwf : ∀ b ∈ boxes, WFBox b) (hle : Config.le c1 c2) :
    ∀ G ∈ clusterGroups boxes c1, ∃ G2 ∈ clusterGroups boxes c2, ∀ x ∈ G, x ∈ G2 := by
  intro G hG
  obtain ⟨x0, hx0⟩ := List.exists_mem_of_ne_nil _ (clusterGroups_ne_nil boxes c1 G hG)
  have hx0lt := clusterGroups_mem_lt boxes c1 hG hx0
  obtain ⟨G2, hG2, hx0G2⟩ := clusterGroups_mem_exists boxes c2 hx0lt
  refine ⟨G2, hG2, ?_⟩
  intro y hy
  have hconn1 := clusterGroups_conn boxes c1 hwf hG hx0 hy
  have hconn2 : Relation.ReflTransGen (connectedBoxes boxes c2) x0 y :=
    Relation.ReflTransGen.mono
      (fun a b hr => ⟨hr.1, hr.2.1, should_merge_mono _ _ _ _ hle hr.2.2⟩) hconn1
  exact clusterGroups_closed boxes c2 hwf hG2 hx0G2 hconn2

def tightConfig : Config :=
  { max_horizontal_gap := 1, max_vertical_gap := 1,
    horizontal_alignment_tolerance := 1, vertical_alignment_tolerance := 1 }

theorem claim_C5_monotone_witness :
    ∃ G2 ∈ clusterGroups [sampleBoxA, sampleBoxB] defaultConfig, ∀ x ∈ [0], x ∈ G2 :=
  claim_C5_monotone [sampleBoxA, sampleBoxB] tightConfig defaultConfig
    (by decide) (by decide) [0] (by decide)

/-- C9: determinism of clustering.  The embedding of
`improved_group_nearby_boxes` is a pure function of the input list and the
config (the Python code copies its input and touches no state that survives
the call), so identical inputs and configs give identical outputs, including
the dense id reassignment. -/
theorem claim_C9_deterministic (boxes1 boxes2 : List Box) (c1 c2 : Config)
    (hb : boxes1 = boxes2) (hc : c1 = c2) :
    improved_group_nearby_boxes boxes1 c1 = improved_group_nearby_boxes boxes2 c2 := by
  rw [hb, hc]

theorem claim_C9_deterministic_witness :
    improved_group_nearby_boxes [sampleBoxA, sampleBoxB] defaultConfig =
      improved_group_nearby_boxes [sampleBoxA, sampleBoxB] defaultConfig :=
  claim_C9_deterministic [sampleBoxA, sampleBoxB] [sampleBoxA, sampleBoxB]
    defaultConfig defaultConfig rfl rfl

/-- C6 counterexample: a singleton group's Region is the source box with the
id reassigned, but it does NOT carry `source_count = 1`: `merge_boxes` of a
one-element group returns the box unchanged, and OCR word boxes have no
`original_boxes` key, so the emitted Region's `original_boxes` is absent
(`none`), not `1`. -/
theorem claim_C6_counterexample :
    improved_group_nearby_boxes [sampleBoxA] defaultConfig =
      some [{ sampleBoxA with id := 0 }] ∧
    ({ sampleBoxA with id := 0 } : Box).original_boxes = none ∧
    ¬ ({ sampleBoxA with id := 0 } : Box).original_boxes = some 1 := by
  refine ⟨rfl, rfl, by decide⟩

/-- C6 amended: a group of size 1 emits a Region identical to its source box
(same text, confidence, bbox, and `original_boxes` content — which is absent
for OCR word boxes), with only the id reassigned to its dense output
position. -/
theorem claim_C6_singleton (boxes : List Box) (cfg : Config) (k j : Nat)
    (regions : List Box)
    (hg : (clusterGroups boxes cfg).get? k = some [j])
    (himp : improved_group_nearby_boxes boxes cfg = some regions) :
    regions.get? k = some { getBox boxes j with id := k } := by
  by_cases hb : boxes.isEmpty = true
  · exfalso
    have hnil : boxes = [] := List.isEmpty_iff.mp hb
    subst hnil
    simp [clusterGroups, groupLoop] at hg
  · rw [improved_group_nearby_boxes, if_neg hb] at himp
    obtain ⟨m, hm, hr⟩ := buildRegions_get boxes (clusterGroups boxes cfg) 0 regions himp k [j] hg
    have hsingle : merge_boxes ([j].map (getBox boxes)) = some (getBox boxes j) := rfl
    rw [hsingle] at hm
    have hmj : m = getBox boxes j := by injection hm with h; exact h.symm
    subst hmj
    simpa using hr

def sampleRegionsAF : List Box :=
  [{ sampleBoxA with id := 0 }, { sampleBoxFar with id := 1 }]

theorem claim_C6_singleton_witness :
    sampleRegionsAF.get? 1 = some { getBox [sampleBoxA, sampleBoxFar] 1 with id := 1 } :=
  claim_C6_singleton [sampleBoxA, sampleBoxFar] defaultConfig 1 1 sampleRegionsAF
    (by decide) (by decide)

/-! ## Data model of the annotation layout engine (create_overlay.py)

Rendering is modelled by the list of drawing operations issued to the PIL
`ImageDraw` object; text measurement (`textbbox`/`textsize` on a loaded
font) is an oracle `measure : String -> Int x Int` giving the measured pixel
width and height of a string. -/

abbrev Color := Int × Int × Int × Int

/-- One drawing call on the overlay. -/
inductive DrawOp where
  | line (p1 p2 : Int × Int) (fill : Color) (lineWidth : Int)
  | ellipse (corner1 corner2 : Int × Int) (outline : Color) (lineWidth : Int)
  | rectangle (corner1 corner2 : Int × Int) (outline : Color) (lineWidth : Int)
  | text (pos : Int × Int) (s : String) (fill : Color)
  deriving DecidableEq

/-- The bbox dictionary of a correction record.  A missing or empty bbox
dict (`correction.get('bbox') or {}` being falsy) is modelled by `none` in
`Correction.bbox`; the `top_left`/`bottom_right` keys read with default
`[0,0]` are kept total here. -/
structure CBBox where
  top_left : Int × Int
  bottom_right : Int × Int
  deriving DecidableEq

/-- A correction record from the judge's JSON, with every key optional. -/
structure Correction where
  status : Option String
  marking : Option String
  original_text : Option String
  corrected_text : Option String
  bbox : Option CBBox
  deriving DecidableEq

/-- The `overall_assessment` object; a missing key reads as the string
`"Not provided"` via `dict.get`. -/
structure Assessment where
  final_answer_status : Option String
  key_strengths : Option String
  areas_for_improvement : Option String
  deriving DecidableEq

/-- The empty assessment object `{}`. -/
def emptyAssessment : Assessment :=
  { final_answer_status := none, key_strengths := none, areas_for_improvement := none }

/-! ## wrap_text (create_overlay.py lines 75-98) -/

/-- Accumulator pass of Python's `text.split()`: splits a character list on
runs of whitespace, dropping empty pieces; `cur` is the word being read. -/
def pySplitGo : List Char → List Char → List (List Char)
  | cur, [] => if cur = [] then [] else [cur]
  | cur, c :: cs =>
    if c.isWhitespace then
      if cur = [] then pySplitGo [] cs else cur :: pySplitGo [] cs
    else pySplitGo (cur ++ [c]) cs

/-- Python's `text.split()` on a character list. -/
def pySplit (l : List Char) : List (List Char) := pySplitGo [] l

/-- Python's `' '.join(...)` on character lists. -/
def joinSp : List (List Char) → List Char
  | [] => []
  | [w] => w
  | w :: ws => w ++ ' ' :: joinSp ws

/-- The greedy line-breaking loop of `wrap_text`: `cur` is `current_line`
(a list of words), the second argument the remaining words; each emitted
line is already space-joined.  A word that does not fit is flushed with the
current line, or emitted alone when the current line is empty. -/
def wrapAux (measure : String → Int × Int) (max_width : Int) :
    List (List Char) → List (List Char) → List (List Char)
  | cur, [] => if cur = [] then [] else [joinSp cur]
  | cur, w :: ws =>
    let test_line := joinSp (cur ++ [w])
    if (measure (String.mk test_line)).1 ≤ max_width then
      wrapAux measure max_width (cur ++ [w]) ws
    else if cur = [] then w :: wrapAux measure max_width [] ws
    else joinSp cur :: wrapAux measure max_width [w] ws

/-- `wrap_text(text, font, max_width)` with the font replaced by the
measurement oracle. -/
def wrap_text (measure : String → Int × Int) (text : String) (max_width : Int) : List String :=
  (wrapAux measure max_width [] (pySplit text.data)).map (fun l => String.mk l)

/-! ## draw_overall_assessment (lines 30-72) -/

/-- Python's `str.upper()`, character-wise (agrees with it on the ASCII
status strings that occur here). -/
def pyUpper (s : String) : String := String.mk (s.data.map Char.toUpper)

/-- `draw_overall_assessment`: the footer panel's drawing operations and the
final `current_y`.  `int(font_size * 1.5)` is modelled by `(font_size*3).fdiv 2`
(exact for the nonnegative font sizes in use). -/
def draw_overall_assessment (measure : String → Int × Int) (assessment : Assessment)
    (img_width img_height font_size y_offset : Int) : List DrawOp × Int :=
  let start_y := img_height + y_offset
  let green_color : Color := (0, 150, 0, 255)
  let red_color : Color := (220, 0, 0, 255)
  let blue_color : Color := (0, 0, 180, 255)
  let black_color : Color := (0, 0, 0, 255)
  let line_spacing := (font_size * 3).fdiv 2
  let y0 := start_y
  let ops0 := [DrawOp.text (20, y0) "OVERALL ASSESSMENT" black_color]
  let y1 := y0 + line_spacing + 10
  let final_status := assessment.final_answer_status.getD "Not provided"
  let status_color :=
    if final_status = "correct" then green_color
    else if final_status = "incorrect" then red_color
    else ((255, 165, 0, 255) : Color)
  let ops1 := ops0 ++ [DrawOp.text (20, y1) "Final Answer:" blue_color]
  let y2 := y1 + line_spacing
  let ops2 := ops1 ++ [DrawOp.text (40, y2) ("- " ++ pyUpper final_status) status_color]
  let y3 := y2 + line_spacing
  let strengths := assessment.key_strengths.getD "Not provided"
  let step3 :=
    if strengths ≠ "" ∧ strengths ≠ "Not provided" then
      let opsA := ops2 ++ [DrawOp.text (20, y3) "Key Strengths:" blue_color]
      let yA := y3 + line_spacing
      let folded := (wrap_text measure strengths (img_width - 80)).foldl
        (fun acc line =>
          (acc.1 ++ [DrawOp.text (40, acc.2) ("• " ++ line) green_color],
            acc.2 + line_spacing - 5))
        (opsA, yA)
      (folded.1, folded.2 + 10)
    else (ops2, y3)
  let improvements := assessment.areas_for_improvement.getD "Not provided"
  let step4 :=
    if improvements ≠ "" ∧ improvements ≠ "Not provided" then
      let opsB := step3.1 ++ [DrawOp.text (20, step3.2) "Areas for Improvement:" blue_color]
      let yB := step3.2 + line_spacing
      let folded := (wrap_text measure improvements (img_width - 80)).foldl
        (fun acc line =>
          (acc.1 ++ [DrawOp.text (40, acc.2) ("• " ++ line) red_color],
            acc.2 + line_spacing - 5))
        (opsB, yB)
      (folded.1, folded.2 + 10)
    else (step3.1, step3.2)
  step4

/-! ## create_overlay per-correction rendering (lines 113-171) -/

/-- The corrected-text label position (lines 158-168): default to the right
of the box at its top edge; on right overflow retry to the left; when the
left x is negative retry above the box; when that y is negative retry below
the box; finally clamp both axes into `[0, image_dimension - text_dimension]`. -/
def place_label (img_width img_height : Int) (top_left bottom_right : Int × Int)
    (mark_size text_width text_height : Int) : Int × Int :=
  let text_x := bottom_right.1 + mark_size + 10
  let text_y := top_left.2
  let p :=
    if text_x + text_width > img_width then
      let text_x2 := top_left.1 - text_width - 10
      if text_x2 < 0 then
        let text_y2 := top_left.2 - text_height - 5
        if text_y2 < 0 then (top_left.1, bottom_right.2 + 5)
        else (top_left.1, text_y2)
      else (text_x2, text_y)
    else (text_x, text_y)
  (max 0 (min p.1 (img_width - text_width)), max 0 (min p.2 (img_height - text_height)))

/-- The drawing operations of one iteration of the `for correction in
corrections` loop.  Python's `int(mark_size / 1.5)`, `int(mark_size / 2)`,
`int(mark_size * 2.0)` and `//` divisions are modelled with exact integer
arithmetic (`fdiv`), which agrees for the nonnegative mark sizes in use. -/
def renderCorrection (measure : String → Int × Int) (img_width img_height mark_size : Int)
    (correction : Correction) : List DrawOp :=
  match correction.bbox with
  | none => []
  | some bb =>
    let top_left := bb.top_left
    let bottom_right := bb.bottom_right
    let status := correction.status.getD "incorrect"
    let marking := correction.marking.getD "rectangle"
    let bwidth := bottom_right.1 - top_left.1
    let bheight := bottom_right.2 - top_left.2
    if bwidth ≤ 0 ∨ bheight ≤ 0 then []
    else if status = "correct" then
      let check_x := bottom_right.1 + 10
      let check_y := (top_left.2 + bottom_right.2).fdiv 2
      [DrawOp.line (check_x, check_y)
        (check_x + (2 * mark_size).fdiv 3, check_y + (2 * mark_size).fdiv 3)
        (0, 180, 0, 255) 8,
       DrawOp.line (check_x + (2 * mark_size).fdiv 3, check_y + (2 * mark_size).fdiv 3)
        (check_x + mark_size * 2, check_y - mark_size.fdiv 2) (0, 180, 0, 255) 8]
    else if status = "incorrect" then
      let shape :=
        if marking = "circle" then
          [DrawOp.ellipse
            (top_left.1 - mark_size.fdiv 4, top_left.2 - mark_size.fdiv 4)
            (bottom_right.1 + mark_size.fdiv 4, bottom_right.2 + mark_size.fdiv 4)
            (240, 30, 30, 255) 5]
        else
          [DrawOp.rectangle
            (top_left.1 - mark_size.fdiv 5, top_left.2 - mark_size.fdiv 5)
            (bottom_right.1 + mark_size.fdiv 5, bottom_right.2 + mark_size.fdiv 5)
            (240, 30, 30, 255) 5]
      let corrected_text := correction.corrected_text.getD ""
      if corrected_text ≠ "" ∧ corrected_text ≠ correction.original_text.getD "" then
        let text_width := (measure corrected_text).1
        let text_height := (measure corrected_text).2
        let pos := place_label img_width img_height top_left bottom_right mark_size
          text_width text_height
        shape ++ [DrawOp.text pos corrected_text (200, 0, 0, 255)]
      else shape
    else []

/-- All drawing operations of `create_overlay` on an `img_width x img_height`
source image: every correction in input order, then the footer panel.
`mark_size = int(font_size * 1.2)` is modelled as `(font_size*12).fdiv 10`. -/
def create_overlay_ops (measure : String → Int × Int) (img_width img_height : Int)
    (corrections : List Correction) (assessment : Assessment) (font_size : Int) :
    List DrawOp :=
  let mark_size := (font_size * 12).fdiv 10
  (corrections.map (renderCorrection measure img_width img_height mark_size)).flatten ++
    (draw_overall_assessment measure assessment img_width img_height font_size 50).1

/-! ## Claims about label placement (C2, C3) -/

theorem clamp_pair_bounds (img_width img_height text_width text_height : Int) (p : Int × Int)
    (hw : text_width ≤ img_width) (hh : text_height ≤ img_height) :
    0 ≤ max 0 (min p.1 (img_width - text_width)) ∧
    max 0 (min p.1 (img_width - text_width)) + text_width ≤ img_width ∧
    0 ≤ max 0 (min p.2 (img_height - text_height)) ∧
    max 0 (min p.2 (img_height - text_height)) + text_height ≤ img_height := by
  have l1 := min_le_right p.1 (img_width - text_width)
  have l2 := min_le_right p.2 (img_height - text_height)
  refine ⟨le_max_left _ _, ?_, le_max_left _ _, ?_⟩
  · have h3 := max_le (by omega : (0 : Int) ≤ img_width - text_width) l1
    omega
  · have h3 := max_le (by omega : (0 : Int) ≤ img_height - text_height) l2
    omega

/-- The final clamp keeps the label rectangle on canvas whenever the measured
text fits inside the image at all. -/
theorem place_label_in_bounds (img_width img_height : Int) (top_left bottom_right : Int × Int)
    (mark_size text_width text_height : Int)
    (hw : text_width ≤ img_width) (hh : text_height ≤ img_height) :
    0 ≤ (place_label img_width img_height top_left bottom_right mark_size text_width text_height).1 ∧
    (place_label img_width img_height top_left bottom_right mark_size text_width text_height).1 +
      text_width ≤ img_width ∧
    0 ≤ (place_label img_width img_height top_left bottom_right mark_size text_width text_height).2 ∧
    (place_label img_width img_height top_left bottom_right mark_size text_width text_height).2 +
      text_height ≤ img_height := by
  unfold place_label
  exact clamp_pair_bounds img_width img_height text_width text_height _ hw hh

def wideMeasure : String → Int × Int := fun _ => (100, 10)

def labelCorrection : Correction :=
  { status := some "incorrect", marking := none, original_text := some "orig",
    corrected_text := some "fixed", bbox := some { top_left := (0, 0), bottom_right := (10, 10) } }

/-- C2 counterexample: on a 50-pixel-wide image, an incorrect correction with
a differing `corrected_text` whose measured width is 100 renders its label at
x = 0 (the clamp `max(0, min(x, img_width - text_width))` pins it to 0 since
`img_width - text_width < 0`), so the label rectangle's right edge
`0 + 100 > 50` sticks out of the canvas: the unconditional on-canvas
invariant is false. -/
theorem claim_C2_counterexample :
    renderCorrection wideMeasure 50 200 1 labelCorrection =
      [DrawOp.rectangle (0, 0) (10, 10) (240, 30, 30, 255) 5,
       DrawOp.text (0, 15) "fixed" (200, 0, 0, 255)] ∧
    (0 : Int) + (wideMeasure "fixed").1 > 50 :=
  ⟨by decide, by decide⟩

/-- C2 amended: for every rendered corrected-text label (the only `text`
operation a correction can emit), if the measured text width and height fit
within the image dimensions then the label rectangle lies fully within
`[0, image_width] x [0, image_height]`; when the measured text is wider or
taller than the image the clamp pins the label at 0 and it overflows. -/
theorem claim_C2_label_on_canvas (measure : String → Int × Int)
    (img_width img_height mark_size : Int) (c : Correction)
    (p : Int × Int) (s : String) (col : Color)
    (hmem : DrawOp.text p s col ∈ renderCorrection measure img_width img_height mark_size c)
    (hw : (measure s).1 ≤ img_width) (hh : (measure s).2 ≤ img_height) :
    0 ≤ p.1 ∧ p.1 + (measure s).1 ≤ img_width ∧
    0 ≤ p.2 ∧ p.2 + (measure s).2 ≤ img_height := by
  unfold renderCorrection at hmem
  cases hbb : c.bbox with
  | none => rw [hbb] at hmem; simp at hmem
  | some bb =>
    rw [hbb] at hmem
    simp only at hmem
    split_ifs at hmem with h1 h2 h3 h4 h5 <;> simp at hmem
    all_goals
      obtain ⟨hp, hs, hcol⟩ := hmem
      subst hp
      subst hs
      exact place_label_in_bounds img_width img_height bb.top_left bb.bottom_right
        mark_size _ _ hw hh

def fitMeasure : String → Int × Int := fun _ => (50, 20)

def labelCorrection2 : Correction :=
  { status := some "incorrect", marking := none, original_text := some "no",
    corrected_text := some "ok", bbox := some { top_left := (0, 0), bottom_right := (40, 20) } }

theorem claim_C2_label_on_canvas_witness :
    0 ≤ ((88 : Int), (0 : Int)).1 ∧
    ((88 : Int), (0 : Int)).1 + (fitMeasure "ok").1 ≤ 1000 ∧
    0 ≤ ((88 : Int), (0 : Int)).2 ∧
    ((88 : Int), (0 : Int)).2 + (fitMeasure "ok").2 ≤ 1000 :=
  claim_C2_label_on_canvas fitMeasure 1000 1000 38 labelCorrection2 (88, 0) "ok"
    (200, 0, 0, 255) (by decide) (by decide) (by decide)

/-- C3 counterexample: box `(0,100)-(10,120)` on a 50x200 image with
`mark_size = 38` and measured text size `20x20`.  The right position
(x = 10+38+10 = 58, right edge 78 > 50) overflows, the left retry
(x = 0-20-10 = -30) is negative, and then — contrary to the claim — the code
places the label ABOVE the box at y = 100-20-5 = 75 (its bottom edge
75+20 = 95 is strictly above the box top 100), not directly below it. -/
theorem claim_C3_counterexample :
    (58 : Int) + 20 > 50 ∧ (0 : Int) - 20 - 10 < 0 ∧
    place_label 50 200 (0, 100) (10, 120) 38 20 20 = (0, 75) ∧
    (75 : Int) + 20 < 100 :=
  ⟨by decide, by decide, by decide, by decide⟩

/-- C3 amended: the fallback order of the label position is right of the box
at its top edge; on right-edge overflow, left of the box; if that x is
negative, directly ABOVE the box (y = top - text_height - 5); if that y is
negative, directly below the box (y = bottom + 5); finally both axes are
clamped into `[0, image_dimension - text_dimension]`. -/
theorem claim_C3_fallback_order (img_width img_height : Int) (top_left bottom_right : Int × Int)
    (mark_size text_width text_height : Int) :
    (bottom_right.1 + mark_size + 10 + text_width ≤ img_width →
      place_label img_width img_height top_left bottom_right mark_size text_width text_height =
        (max 0 (min (bottom_right.1 + mark_size + 10) (img_width - text_width)),
         max 0 (min top_left.2 (img_height - text_height)))) ∧
    (bottom_right.1 + mark_size + 10 + text_width > img_width →
      0 ≤ top_left.1 - text_width - 10 →
      place_label img_width img_height top_left bottom_right mark_size text_width text_height =
        (max 0 (min (top_left.1 - text_width - 10) (img_width - text_width)),
         max 0 (min top_left.2 (img_height - text_height)))) ∧
    (bottom_right.1 + mark_size + 10 + text_width > img_width →
      top_left.1 - text_width - 10 < 0 →
      0 ≤ top_left.2 - text_height - 5 →
      place_label img_width img_height top_left bottom_right mark_size text_width text_height =
        (max 0 (min top_left.1 (img_width - text_width)),
         max 0 (min (top_left.2 - text_height - 5) (img_height - text_height)))) ∧
    (bottom_right.1 + mark_size + 10 + text_width > img_width →
      top_left.1 - text_width - 10 < 0 →
      top_left.2 - text_height - 5 < 0 →
      place_label img_width img_height top_left bottom_right mark_size text_width text_height =
        (max 0 (min top_left.1 (img_width - text_width)),
         max 0 (min (bottom_right.2 + 5) (img_height - text_height)))) := by
  refine ⟨?_, ?_, ?_, ?_⟩ <;>
    (intros
     simp only [place_label]
     split_ifs <;> first | rfl | (exfalso; omega))

theorem claim_C3_fallback_order_witness :
    place_label 1000 1000 (0, 0) (40, 20) 38 50 20 = (88, 0) :=
  ((claim_C3_fallback_order 1000 1000 (0, 0) (40, 20) 38 50 20).1 (by decide)).trans (by decide)

/-! ## Claim C7: skip rule for degenerate corrections -/

theorem renderCorrection_skip (measure : String → Int × Int)
    (img_width img_height mark_size : Int) (c : Correction) (bb : CBBox)
    (hbb : c.bbox = some bb)
    (hdeg : bb.bottom_right.1 - bb.top_left.1 ≤ 0 ∨ bb.bottom_right.2 - bb.top_left.2 ≤ 0) :
    renderCorrection measure img_width img_height mark_size c = [] := by
  unfold renderCorrection
  rw [hbb]
  simp only
  rw [if_pos hdeg]

/-- C7: a correction whose bbox has non-positive width or height (e.g. the
zero-area `{top_left:[5,5], bottom_right:[5,5]}`) draws nothing — no outline,
no checkmark, no label — and removing it from the corrections list leaves
the full overlay drawing unchanged (all other records still render; no
exception is modelled since the embedding is total on this path). -/
theorem claim_C7_skip_degenerate (measure : String → Int × Int)
    (img_width img_height mark_size : Int) (c : Correction) (bb : CBBox)
    (hbb : c.bbox = some bb)
    (hdeg : bb.bottom_right.1 - bb.top_left.1 ≤ 0 ∨ bb.bottom_right.2 - bb.top_left.2 ≤ 0) :
    renderCorrection measure img_width img_height mark_size c = [] ∧
    ∀ (pre post : List Correction) (assessment : Assessment) (font_size : Int),
      create_overlay_ops measure img_width img_height (pre ++ c :: post) assessment font_size =
        create_overlay_ops measure img_width img_height (pre ++ post) assessment font_size := by
  refine ⟨renderCorrection_skip measure img_width img_height mark_size c bb hbb hdeg, ?_⟩
  intro pre post assessment font_size
  unfold create_overlay_ops
  simp only [List.map_append, List.map_cons, List.flatten_append, List.flatten_cons]
  rw [renderCorrection_skip measure img_width img_height ((font_size * 12).fdiv 10) c bb hbb hdeg]
  simp

def degenerateCorrection : Correction :=
  { status := some "incorrect", marking := some "circle", original_text := some "a",
    corrected_text := some "b", bbox := some { top_left := (5, 5), bottom_right := (5, 5) } }

theorem claim_C7_skip_degenerate_witness :
    renderCorrection fitMeasure 600 400 38 degenerateCorrection = [] ∧
    create_overlay_ops fitMeasure 600 400 ([labelCorrection2] ++ degenerateCorrection :: [])
        emptyAssessment 32 =
      create_overlay_ops fitMeasure 600 400 ([labelCorrection2] ++ []) emptyAssessment 32 :=
  ⟨(claim_C7_skip_degenerate fitMeasure 600 400 38 degenerateCorrection _ rfl (by decide)).1,
   (claim_C7_skip_degenerate fitMeasure 600 400 38 degenerateCorrection _ rfl (by decide)).2
     [labelCorrection2] [] emptyAssessment 32⟩

/-! ## Claim C8: empty assessment footer -/

/-- C8: with `overall_assessment = {}` the footer renders exactly the title,
the "Final Answer:" heading, and the line "- NOT PROVIDED" in the
"other"-status color `(255,165,0)` (orange, distinct from the green used for
"correct" and the red used for "incorrect"), and no Key Strengths or Areas
for Improvement block; the embedding is total, so nothing is raised. -/
theorem claim_C8_empty_assessment (measure : String → Int × Int)
    (img_width img_height font_size y_offset : Int) :
    (draw_overall_assessment measure emptyAssessment img_width img_height font_size y_offset).1 =
      [DrawOp.text (20, img_height + y_offset) "OVERALL ASSESSMENT" (0, 0, 0, 255),
       DrawOp.text (20, img_height + y_offset + (font_size * 3).fdiv 2 + 10)
         "Final Answer:" (0, 0, 180, 255),
       DrawOp.text (40, img_height + y_offset + (font_size * 3).fdiv 2 + 10 + (font_size * 3).fdiv 2)
         "- NOT PROVIDED" (255, 165, 0, 255)] ∧
    ((255, 165, 0, 255) : Color) ≠ (0, 150, 0, 255) ∧
    ((255, 165, 0, 255) : Color) ≠ (220, 0, 0, 255) := by
  refine ⟨?_, by decide, by decide⟩
  have hup : "- " ++ pyUpper "Not provided" = "- NOT PROVIDED" := by decide
  unfold draw_overall_assessment
  simp only [emptyAssessment, Option.getD_none, hup]
  simp

/-! ## Claim C10: wrapping preserves the word sequence -/

theorem pySplitGo_sound : ∀ (l cur : List Char), (∀ c ∈ cur, c.isWhitespace = false) →
    ∀ w ∈ pySplitGo cur l, w ≠ [] ∧ ∀ c ∈ w, c.isWhitespace = false := by
  intro l
  induction l with
  | nil =>
    intro cur hcur w hw
    by_cases hc : cur = []
    · subst hc; simp [pySplitGo] at hw
    · rw [pySplitGo, if_neg hc] at hw
      have hwc : w = cur := by simpa using hw
      subst hwc
      exact ⟨hc, hcur⟩
  | cons c cs ih =>
    intro cur hcur w hw
    rw [pySplitGo] at hw
    cases hws : c.isWhitespace with
    | true =>
      simp only [hws, if_true] at hw
      by_cases hc : cur = []
      · rw [if_pos hc] at hw
        exact ih [] (by simp) w hw
      · rw [if_neg hc] at hw
        rcases List.mem_cons.mp hw with hwc | hwr
        · subst hwc; exact ⟨hc, hcur⟩
        · exact ih [] (by simp) w hwr
    | false =>
      simp only [hws, Bool.false_eq_true, if_false] at hw
      refine ih (cur ++ [c]) ?_ w hw
      intro x hx
      rcases List.mem_append.mp hx with hx1 | hx2
      · exact hcur x hx1
      · have : x = c := by simpa using hx2
        subst this; exact hws

theorem pySplitGo_nosplit : ∀ (w cur : List Char), (∀ c ∈ w, c.isWhitespace = false) →
    pySplitGo cur w = if cur ++ w = [] then [] else [cur ++ w] := by
  intro w
  induction w with
  | nil => intro cur _; simp [pySplitGo]
  | cons c cs ih =>
    intro cur hok
    rw [pySplitGo]
    have hc : c.isWhitespace = false := hok c (by simp)
    simp only [hc, Bool.false_eq_true, if_false]
    rw [ih (cur ++ [c]) (fun x hx => hok x (by simp [hx]))]
    simp

theorem pySplitGo_break : ∀ (w cur t : List Char), (∀ c ∈ w, c.isWhitespace = false) →
    pySplitGo cur (w ++ ' ' :: t) =
      if cur ++ w = [] then pySplitGo [] t else (cur ++ w) :: pySplitGo [] t := by
  intro w
  induction w with
  | nil =>
    intro cur t _
    simp only [List.nil_append, List.append_nil]
    rw [pySplitGo]
    have hsp : (' ' : Char).isWhitespace = true := by decide
    simp only [hsp, if_true]
  | cons c cs ih =>
    intro cur t hok
    have hc : c.isWhitespace = false := hok c (by simp)
    rw [List.cons_append, pySplitGo]
    simp only [hc, Bool.false_eq_true, if_false]
    rw [ih (cur ++ [c]) t (fun x hx => hok x (by simp [hx]))]
    simp [List.append_assoc]

theorem joinSp_cons (x : List Char) (l : List (List Char)) (h : l ≠ []) :
    joinSp (x :: l) = x ++ ' ' :: joinSp l := by
  cases l with
  | nil => exact absurd rfl h
  | cons y ys => rfl

theorem pySplit_joinSp : ∀ ws : List (List Char),
    (∀ w ∈ ws, w ≠ [] ∧ ∀ c ∈ w, c.isWhitespace = false) → pySplit (joinSp ws) = ws := by
  intro ws
  induction ws with
  | nil => intro _; rfl
  | cons w ws2 ih =>
    intro hok
    cases ws2 with
    | nil =>
      unfold pySplit
      have hjoin : joinSp [w] = w := rfl
      rw [hjoin, pySplitGo_nosplit w [] (hok w (by simp)).2]
      simp [(hok w (by simp)).1]
    | cons u us =>
      unfold pySplit
      rw [joinSp_cons w (u :: us) (by simp),
        pySplitGo_break w [] (joinSp (u :: us)) (hok w (by simp)).2]
      simp only [List.nil_append]
      rw [if_neg (hok w (by simp)).1]
      have ihr := ih (fun x hx => hok x (by simp [hx]))
      unfold pySplit at ihr
      rw [ihr]

theorem joinSp_append : ∀ p q : List (List Char), p ≠ [] → q ≠ [] →
    joinSp (p ++ q) = joinSp p ++ ' ' :: joinSp q := by
  intro p
  induction p with
  | nil => intro q h; exact absurd rfl h
  | cons x xs ih =>
    intro q _ hq
    cases xs with
    | nil =>
      rw [List.cons_append, List.nil_append, joinSp_cons x q hq]
      rfl
    | cons z zs =>
      rw [List.cons_append, joinSp_cons x (z :: zs ++ q) (by simp),
        joinSp_cons x (z :: zs) (by simp), ih q (by simp) hq]
      simp

theorem joinSp_map_flatten : ∀ parts : List (List (List Char)), (∀ p ∈ parts, p ≠ []) →
    joinSp (parts.map joinSp) = joinSp parts.flatten := by
  intro parts
  induction parts with
  | nil => intro _; rfl
  | cons p rest ih =>
    intro hok
    cases rest with
    | nil => simp [joinSp]
    | cons r rs =>
      have hpne : p ≠ [] := hok p (by simp)
      have hrflat : (r :: rs).flatten ≠ [] := by
        have hrne : r ≠ [] := hok r (by simp)
        simp only [List.flatten_cons]
        intro hcontra
        exact hrne (List.append_eq_nil.mp hcontra).1
      calc joinSp ((p :: r :: rs).map joinSp)
          = joinSp (joinSp p :: (r :: rs).map joinSp) := rfl
        _ = joinSp p ++ ' ' :: joinSp ((r :: rs).map joinSp) := joinSp_cons _ _ (by simp)
        _ = joinSp p ++ ' ' :: joinSp ((r :: rs).flatten) := by
            rw [ih (fun x hx => hok x (by simp [hx]))]
        _ = joinSp (p ++ (r :: rs).flatten) :=
            (joinSp_append p ((r :: rs).flatten) hpne hrflat).symm
        _ = joinSp ((p :: r :: rs).flatten) := by simp

theorem wrapAux_partition (measure : String → Int × Int) (max_width : Int) :
    ∀ (ws cur : List (List Char)),
    ∃ parts : List (List (List Char)),
      wrapAux measure max_width cur ws = parts.map joinSp ∧
      parts.flatten = cur ++ ws ∧ ∀ p ∈ parts, p ≠ [] := by
  intro ws
  induction ws with
  | nil =>
    intro cur
    by_cases hc : cur = []
    · subst hc
      exact ⟨[], by simp [wrapAux], by simp, by simp⟩
    · refine ⟨[cur], ?_, by simp, by simp [hc]⟩
      simp [wrapAux, hc]
  | cons w ws2 ih =>
    intro cur
    rw [wrapAux]
    by_cases hfit : (measure (String.mk (joinSp (cur ++ [w])))).1 ≤ max_width
    · rw [if_pos hfit]
      obtain ⟨parts, h1, h2, h3⟩ := ih (cur ++ [w])
      exact ⟨parts, h1, by rw [h2]; simp, h3⟩
    · rw [if_neg hfit]
      by_cases hc : cur = []
      · rw [if_pos hc]
        obtain ⟨parts, h1, h2, h3⟩ := ih []
        refine ⟨[w] :: parts, ?_, ?_, ?_⟩
        · simp only [List.map_cons, h1]
          rfl
        · rw [List.flatten_cons, h2, hc]
          simp
        · intro p hp
          rcases List.mem_cons.mp hp with hp1 | hp2
          · subst hp1; simp
          · exact h3 p hp2
      · rw [if_neg hc]
        obtain ⟨parts, h1, h2, h3⟩ := ih [w]
        refine ⟨cur :: parts, ?_, ?_, ?_⟩
        · simp only [List.map_cons, h1]
        · rw [List.flatten_cons, h2]
          simp
        · intro p hp
          rcases List.mem_cons.mp hp with hp1 | hp2
          · subst hp1; exact hc
          · exact h3 p hp2

/-- C10: word preservation by text wrapping.  Joining the lines returned by
`wrap_text` with single spaces and splitting on whitespace (Python
`text.split()`, embedded as `pySplit`) yields exactly the whitespace-separated
word sequence of the original text — no word is dropped, duplicated or
reordered, for every measurement oracle and every `max_width`. -/
theorem claim_C10_wrap_preserves_words (measure : String → Int × Int) (text : String)
    (max_width : Int) :
    pySplit (joinSp ((wrap_text measure text max_width).map String.data)) =
      pySplit text.data := by
  unfold wrap_text
  rw [List.map_map]
  have hcomp : (String.data ∘ fun l => String.mk l) = (id : List Char → List Char) :=
    funext fun l => rfl
  rw [hcomp, List.map_id]
  obtain ⟨parts, h1, h2, h3⟩ := wrapAux_partition measure max_width (pySplit text.data) []
  rw [h1, joinSp_map_flatten parts h3, h2]
  simp only [List.nil_append]
  exact pySplit_joinSp (pySplit text.data) (pySplitGo_sound text.data [] (by simp))
